import Mathlib

/-!
Verification development for the saixaid RAG pipeline.

The development shallowly embeds the core pipeline of the repository:

* `app/services/azure/blob.py` — `preprocess_and_chunk_data`, the chunker that
  turns a table of conversation rows into token-bounded passages;
* `app/services/rag/rag_service.py` — `create_embeddings`, `build_index`,
  `build_index_from_blob`, `expand_query`, `rerank_documents`, `query_index`;
* `app/api/v1/rag/router.py` — the `/query` endpoint (`query_rag_index`),
  which composes `expand_query` with `query_index`.

External collaborators (the tiktoken encoder, the Azure OpenAI embedding /
chat-completion services, the Azure AI Search backend) are modelled as
oracle parameters or as an explicit service state; everything the Python
code itself computes is translated directly.  Floating-point scores are
modelled by rationals (only their ordering matters to any claim), and
pandas timestamps by `Option Int` (`none` models `NaT`).
-/

namespace Saix

/-- One row of the input CSV after timestamp parsing
(`blob.py` lines 38-46).  `ts` models the row's `Timestamp` column after
`pd.to_datetime(..., errors="coerce")` (`none` = `NaT`); `pts` likewise
models the parsed `Parent Message Timestamp` column before the `fillna`;
`line` models the rendered text line
`" ".join` of the six text fields (`blob.py` line 66). -/
structure Row where
  ts : Option Int
  pts : Option Int
  line : String
deriving DecidableEq, Repr

/-- The thread key of a row: `blob.py` line 46,
`df[thread_field] = pd.to_datetime(...).fillna(df[timestamp_field])`.
A row whose `Parent Message Timestamp` fails to parse falls back to its own
`Timestamp`; if that is also `NaT` the key stays `NaT` (`none`). -/
def threadKey (r : Row) : Option Int :=
  match r.pts with
  | some p => some p
  | none => r.ts

/-- Comparison used by the global sort `df.sort_values(timestamp_field)`
(`blob.py` line 50): ascending by timestamp with `NaT` placed last
(pandas `na_position="last"`). -/
def tsLeB (a b : Row) : Bool :=
  match a.ts, b.ts with
  | some x, some y => decide (x ≤ y)
  | _, none => true
  | none, some _ => false

/-- The global sort of `blob.py` line 50, modelled as a stable sort by
timestamp with `NaT` rows last.  (pandas' default `quicksort` leaves the
relative order of equal timestamps unspecified; no claim depends on the
tie order.) -/
def sortRows (rows : List Row) : List Row :=
  rows.insertionSort (fun a b => tsLeB a b = true)

/-- Insert a key into a sorted duplicate-free key list, keeping it sorted
and duplicate-free.  Building block for the group keys of
`df.groupby(thread_field)`. -/
def insertKey (k : Int) : List Int → List Int
  | [] => [k]
  | k' :: ks =>
    if k < k' then k :: k' :: ks
    else if k = k' then k' :: ks
    else k' :: insertKey k ks

/-- The distinct thread keys, in ascending order: pandas
`df.groupby(thread_field)` (`blob.py` line 60) iterates the groups sorted
by the group key (`sort=True` is the default), and silently drops rows
whose key is `NaT` (`dropna=True` is the default) — hence the
`filterMap threadKey`. -/
def sortedKeys (rows : List Row) : List Int :=
  ((sortRows rows).filterMap threadKey).foldr insertKey []

/-- The thread groups iterated by the loop at `blob.py` line 62: one group
per distinct (non-`NaT`) key, visited in ascending key order; each group
holds its rows in the order of the globally sorted frame. -/
def threadGroups (rows : List Row) : List (Int × List Row) :=
  (sortedKeys rows).map
    (fun k => (k, (sortRows rows).filter (fun r => threadKey r == some k)))

/-- Helper for `dedupKeepFirst`: drop keys already seen, keeping first
occurrences in order. -/
def dedupKeepFirstGo (seen : List Int) : List Int → List Int
  | [] => []
  | k :: ks =>
    if k ∈ seen then dedupKeepFirstGo seen ks
    else k :: dedupKeepFirstGo (k :: seen) ks

/-- Comparison definition following the spec wording for the claim about
group visiting order: the spec says groups are iterated "in the order
their first row appears after the global sort".  Keeps the first
occurrence of every key. -/
def dedupKeepFirst (l : List Int) : List Int := dedupKeepFirstGo [] l

/-- Comparison definition following the spec wording: the keys of the
thread groups in first-appearance order after the global sort (not the
order the code actually uses). -/
def firstAppearanceKeys (rows : List Row) : List Int :=
  dedupKeepFirst ((sortRows rows).filterMap threadKey)

/-- Newline-joining of text lines, `"\n".join(...)`. -/
def joinLines (lines : List String) : String :=
  String.intercalate "\n" lines

/-- A piece is a run of text lines whose token count the chunker measured
as one unit: a whole thread group's lines on the buffered path, a single
line on the oversized-split path. -/
abbrev Piece := List String

/-- A chunk is kept as its list of measured pieces; the emitted passage
string is the newline-join of all its lines (`chunkText`). -/
abbrev Chunk := List Piece

/-- All text lines of a chunk, in order. -/
def chunkLines (c : Chunk) : List String := c.flatten

/-- The passage string the Python code emits for a chunk:
`"\n".join(current_chunk)` over its flat line list. -/
def chunkText (c : Chunk) : String := joinLines (chunkLines c)

/-- The token count the code measured for one piece:
`len(encoding.encode("\n".join(lines)))` of the piece's own lines. -/
def pieceTokens (tok : String → Nat) (p : Piece) : Nat := tok (joinLines p)

/-- The accumulated token measure of a chunk: the sum of the measured
token counts of its pieces.  This is exactly the quantity
`current_chunk_tokens` (resp. `temp_tokens`) that the code compares
against `target_chunk_tokens`. -/
def chunkMeasure (tok : String → Nat) (c : Chunk) : Nat :=
  (c.map (pieceTokens tok)).sum

/-- Greedy sub-splitting of an oversized thread group,
`blob.py` lines 79-91: walk the group's lines keeping a running
`temp_chunk`/`temp_tokens`; when a line no longer fits, flush `temp_chunk`
(even when it is empty, which emits an empty passage) and restart from
that line; finally flush a non-empty remainder. -/
def splitGo (tok : String → Nat) (t : Nat) :
    List String → List String → Nat → List Chunk
  | [], temp, _ =>
    if temp = [] then [] else [temp.map (fun l => [l])]
  | line :: rest, temp, tempTokens =>
    if tempTokens + tok line > t then
      temp.map (fun l => [l]) :: splitGo tok t rest [line] (tok line)
    else
      splitGo tok t rest (temp ++ [line]) (tempTokens + tok line)

/-- Loop state of `preprocess_and_chunk_data`
(`blob.py` lines 55-58): emitted chunks, the accumulating buffer (as
measured pieces), its token total, and `last_ts`. -/
structure CState where
  chunks : List Chunk
  current : Chunk
  currentTokens : Nat
  lastTs : Option Int
deriving DecidableEq, Repr

/-- Initial loop state (`blob.py` lines 55-58). -/
def initState : CState := ⟨[], [], 0, none⟩

/-- Token-budget flush, `blob.py` lines 71-75: when the buffer is
non-empty and adding the group would exceed the budget, emit the buffer
and reset buffer, token total and `last_ts`. -/
def tokenFlush (t : Nat) (combinedTokens : Nat) (st : CState) : CState :=
  if st.current ≠ [] ∧ st.currentTokens + combinedTokens > t then
    ⟨st.chunks ++ [st.current], [], 0, none⟩
  else st

/-- The timestamp of a group's first row, `group.iloc[0][timestamp_field]`
(`blob.py` line 63). -/
def firstRowTs (g : List Row) : Option Int :=
  match g with
  | [] => none
  | r :: _ => r.ts

/-- Time-window flush, `blob.py` lines 95-98: when `last_ts` is set and
the gap to the group's first timestamp exceeds the window, emit the buffer
and reset buffer and token total — but, unlike the token flush, keep
`last_ts`.  A `NaT` first timestamp never triggers the flush
(`NaT - x > timedelta` is false in pandas). -/
def timeFlush (w : Int) (fts : Option Int) (st : CState) : CState :=
  match st.lastTs, fts with
  | some l, some f =>
    if f - l > w then ⟨st.chunks ++ [st.current], [], 0, st.lastTs⟩ else st
  | _, _ => st

/-- Append a group to the buffer, `blob.py` lines 101-102. -/
def appendGroup (textLines : List String) (combinedTokens : Nat) (st : CState) : CState :=
  ⟨st.chunks, st.current ++ [textLines], st.currentTokens + combinedTokens, st.lastTs⟩

/-- Maximum parseable timestamp of a group,
`group[timestamp_field].max()` (`blob.py` line 103): pandas skips `NaT`
values and returns `NaT` only when every value is `NaT`. -/
def groupMaxTs (g : List Row) : Option Int :=
  g.foldl
    (fun acc r =>
      match acc, r.ts with
      | none, v => v
      | some m, none => some m
      | some m, some v => some (max m v))
    none

/-- Advance `last_ts`, `blob.py` lines 103-113: skip a `NaT` group
maximum; otherwise set `last_ts` to the maximum seen so far. -/
def updateLastTs (g : List Row) (st : CState) : CState :=
  match groupMaxTs g with
  | none => st
  | some m =>
    { st with lastTs := some (match st.lastTs with | none => m | some l => max l m) }

/-- One iteration of the main loop of `preprocess_and_chunk_data`
(`blob.py` lines 62-113) on a thread group. -/
def chunkStep (tok : String → Nat) (w : Int) (t : Nat) (st : CState) (g : List Row) : CState :=
  let textLines := g.map Row.line
  let combinedTokens := tok (joinLines textLines)
  let st1 := tokenFlush t combinedTokens st
  if combinedTokens > t then
    { st1 with chunks := st1.chunks ++ splitGo tok t textLines [] 0 }
  else
    updateLastTs g (appendGroup textLines combinedTokens (timeFlush w (firstRowTs g) st1))

/-- The whole group loop, folded over the thread groups. -/
def chunkRun (tok : String → Nat) (w : Int) (t : Nat) (groups : List (List Row)) : CState :=
  groups.foldl (chunkStep tok w t) initState

/-- The chunks produced by `preprocess_and_chunk_data` before they are
joined into strings: run the loop over the thread groups and flush a
non-empty remaining buffer (`blob.py` lines 116-117).  `tok` is the
token-counting oracle `len(encoding.encode(-))` of the `cl100k_base`
encoder; `w` is `time_window_minutes` (timestamps are in minutes), `t` is
`target_chunk_tokens`. -/
def chunkCore (tok : String → Nat) (w : Int) (t : Nat) (rows : List Row) : List Chunk :=
  let fin := chunkRun tok w t ((threadGroups rows).map Prod.snd)
  fin.chunks ++ (if fin.current = [] then [] else [fin.current])

/-- Failure of `preprocess_and_chunk_data`.  `statsEmpty` models the
`ZeroDivisionError` raised by the logging at `blob.py` line 122
(`sum(token_counts) // len(token_counts)`) when no chunk was produced. -/
inductive ChunkError where
  | statsEmpty
deriving DecidableEq, Repr

/-- Model of `preprocess_and_chunk_data` (`blob.py` lines 34-125): produce the
passage strings, or fail with the statistics `ZeroDivisionError` when the
chunk list is empty. -/
def preprocess_and_chunk_data (tok : String → Nat) (w : Int) (t : Nat) (rows : List Row) :
    Except ChunkError (List String) :=
  let chunks := (chunkCore tok w t rows).map chunkText
  if chunks = [] then .error .statsEmpty else .ok chunks

/-- Character-count token oracle used by concrete examples (any
`String → Nat` instantiates the tokenizer parameter). -/
def tokChars (s : String) : Nat := s.length

/-! ## RAG service (`app/services/rag/rag_service.py`) -/

/-- The typed error raised by the service
(`AppException(error_code=INTERNAL_SERVER_ERROR, message=..., context=...)`);
only the message and the stringified underlying error are recorded. -/
structure AppError where
  message : String
  context : String
deriving DecidableEq, Repr

/-- Model of `RagService.create_embeddings` (`rag_service.py` lines 28-47): embed
the chunks one at a time, sequentially; the first failing call raises an
`AppException` whose context carries only the stringified error, which
aborts the whole batch.  `embed` is the Azure OpenAI embedding oracle
(`Except.error e` models a raised exception with message `e`). -/
def create_embeddings (embed : String → Except String (List ℚ)) :
    List String → Except AppError (List (List ℚ))
  | [] => .ok []
  | chunk :: rest =>
    match embed chunk with
    | .error e => .error ⟨"Failed to create embedding", e⟩
    | .ok v =>
      match create_embeddings embed rest with
      | .error err => .error err
      | .ok vs => .ok (v :: vs)

/-- A retrieved document as built in `query_index`
(`rag_service.py` lines 561-568): id, raw vector-search score, stored
content. -/
structure SrcDoc where
  documentId : String
  relevanceScore : ℚ
  contentSnippet : String
deriving DecidableEq, Repr

/-- A reranked document as built in `rerank_documents`
(`rag_service.py` lines 483-488). -/
structure RerankedDoc where
  documentId : String
  originalScore : ℚ
  rerankScore : ℚ
  contentSnippet : String
deriving DecidableEq, Repr

/-- The per-document body of the rerank loop
(`rag_service.py` lines 456-488): ask the model for a numeric relevance
score; on any call or parse failure (`score = none`) fall back to `0`. -/
def mkReranked (score : SrcDoc → Option ℚ) (d : SrcDoc) : RerankedDoc :=
  { documentId := d.documentId
    originalScore := d.relevanceScore
    rerankScore := (score d).getD 0
    contentSnippet := d.contentSnippet }

/-- Descending order on rerank scores, the sort key of
`reranked_results.sort(key=..., reverse=True)`. -/
def rerankGE (a b : RerankedDoc) : Prop := b.rerankScore ≤ a.rerankScore

instance : DecidableRel rerankGE :=
  fun a b => inferInstanceAs (Decidable (b.rerankScore ≤ a.rerankScore))

instance : IsTotal RerankedDoc rerankGE :=
  ⟨fun a b => le_total b.rerankScore a.rerankScore⟩

instance : IsTrans RerankedDoc rerankGE :=
  ⟨fun _ _ _ hab hbc => le_trans hbc hab⟩

/-- Model of `RagService.rerank_documents` (`rag_service.py` lines 452-492): score
every document independently (failures become `0`), then sort descending
by rerank score.  Python's `list.sort` is stable, modelled by a stable
insertion sort.  `score` is the chat-completion scoring oracle, given the
query and the document. -/
def rerank_documents (score : String → SrcDoc → Option ℚ) (query : String)
    (documents : List SrcDoc) : List RerankedDoc :=
  List.insertionSort rerankGE (documents.map (mkReranked (score query)))

/-- Model of `RagService.expand_query` (`rag_service.py` lines 425-449): ask the
model for a rewritten query; on any failure return the original query.
`eoracle` is the chat-completion oracle (already `.strip()`-ed). -/
def expand_query (eoracle : String → Option String) (query : String) : String :=
  match eoracle query with
  | some expanded => expanded
  | none => query

/-- The response dictionary of `query_index`
(`rag_service.py` lines 605-610). -/
structure QueryResponse where
  answer : String
  scores : List ℚ
  sourceDocuments : List SrcDoc
  expandedQuery : String
deriving DecidableEq, Repr

/-- Model of `RagService.query_index`, post-resolution data flow
(`rag_service.py` lines 502-610): embed the query, run the vector search,
rerank, hand the rerank-ordered context block to the completion call, and
assemble the response.  `embed` abstracts `create_embeddings` on the
query, `search` the Azure vector search on the query embedding (returning
the scored documents of lines 561-568 in similarity order), `score` the
rerank oracle, and `complete` the final chat completion, receiving the
context block and the user question.  Which physical index the search
runs against is modelled separately (`query_index_search_target`). -/
def query_index_model (embed : String → List ℚ) (search : List ℚ → List SrcDoc)
    (score : String → SrcDoc → Option ℚ) (complete : String → String → String)
    (query : String) : QueryResponse :=
  let query_embedding := embed query
  let source_documents := search query_embedding
  let reranked_documents := rerank_documents score query source_documents
  let context_texts := String.intercalate "\n" (reranked_documents.map RerankedDoc.contentSnippet)
  let answer := complete context_texts query
  { answer := answer
    scores := source_documents.map SrcDoc.relevanceScore
    sourceDocuments := source_documents
    expandedQuery := query }

/-- The `/query` endpoint `query_rag_index`
(`app/api/v1/rag/router.py` lines 167-185): expand the query, then run
`query_index` on the expanded query. -/
def query_rag_index (embed : String → List ℚ) (search : List ℚ → List SrcDoc)
    (score : String → SrcDoc → Option ℚ) (complete : String → String → String)
    (eoracle : String → Option String) (query : String) : QueryResponse :=
  let expanded_query := expand_query eoracle query
  query_index_model embed search score complete expanded_query

/-! ## Azure AI Search state (`rag_service.py` index lifecycle)

The search backend is modelled as an association list from index name to
stored documents; vector search is abstracted as access to the stored
documents of the searched index (a real search returns a scored subset of
exactly these documents). -/

/-- A stored document: key and content (the embedding vector plays no
role in any claim about index routing). -/
structure AzDoc where
  id : String
  content : String
deriving DecidableEq, Repr

/-- The search service state: each physical index with its documents. -/
abbrev AzState := List (String × List AzDoc)

/-- Fetch an index's documents by name (`none` models `get_index` /
search-client failure on an absent index). -/
def lookupIndex : AzState → String → Option (List AzDoc)
  | [], _ => none
  | (m, ds) :: st, n => if m = n then some ds else lookupIndex st n

/-- Existence check, `index_name in list(admin_client.list_index_names())`. -/
def hasIndexB (st : AzState) (n : String) : Bool := (lookupIndex st n).isSome

/-- Model of `admin_client.create_index` on a fresh name: a new empty index. -/
def create_index (st : AzState) (n : String) : AzState := st ++ [(n, [])]

/-- Model of `admin_client.delete_index`. -/
def delete_index (st : AzState) (n : String) : AzState :=
  st.filter (fun e => e.1 != n)

/-- Upsert one document by key (`upload_documents` uses the `id` key). -/
def upsertOne (d : AzDoc) (cur : List AzDoc) : List AzDoc :=
  if cur.any (fun x => x.id == d.id) then
    cur.map (fun x => if x.id = d.id then d else x)
  else cur ++ [d]

/-- Model of `search_client.upload_documents` into index `n`: the
documents are upserted into the named index's stored list, every other
index is untouched. -/
def upload_documents (st : AzState) (n : String) (docs : List AzDoc) : AzState :=
  st.map (fun e => (e.1, if e.1 = n then docs.foldl (fun cur d => upsertOne d cur) e.2 else e.2))

/-- ASCII model of Python's `str.lower()` (`company_id.lower()`). -/
def charLower (c : Char) : Char :=
  if 65 ≤ c.toNat ∧ c.toNat ≤ 90 then Char.ofNat (c.toNat + 32) else c

/-- ASCII model of Python's `str.lower()` on strings. -/
def toLowerAscii (s : String) : String := String.mk (s.data.map charLower)

/-- The documents uploaded by `RagService.build_index`
(`rag_service.py` lines 382-385): ids `f"{file_id}_{i}"`. -/
def mkFileDocs (fileId : String) (chunks : List String) : List AzDoc :=
  chunks.enum.map (fun p => ⟨fileId ++ "_" ++ toString p.1, p.2⟩)

/-- Model of `RagService.build_index`, index-routing and upload behaviour
(`rag_service.py` lines 189-411), with download / chunking / embedding
abstracted into the `chunks` argument.  Alias resolution (lines 272-278):
`get_index(base_index_name)` succeeds exactly when an index named
`base_index_name` exists, and then `actual_index_name = index.name` is
that same base name; otherwise the per-tenant name
`f"{base_index_name}-{company_id.lower()}"` is used.  If the target is
absent it is created, and the "alias" block (lines 340-356) deletes any
index named `base_index_name` and creates a fresh empty index under that
base name.  Finally the documents are uploaded to the target. -/
def build_index (base companyId fileId : String) (chunks : List String) (st : AzState) :
    AzState :=
  let actual := if hasIndexB st base then base else base ++ "-" ++ toLowerAscii companyId
  if hasIndexB st actual then
    upload_documents st actual (mkFileDocs fileId chunks)
  else
    let st1 := create_index st actual
    let st2 := create_index (delete_index st1 base) base
    upload_documents st2 actual (mkFileDocs fileId chunks)

/-- The documents visible to `RagService.query_index`'s vector search
(`rag_service.py` lines 510-557): the search always runs against
`base_index_name` — the per-tenant suffix is commented out
(line 511) and `get_index(index_name).name` is the same base name — so
the tenant id plays no role in index selection; `none` models the
`AppException` raised when the base-named index is absent. -/
def query_index_search_target (base : String) (_companyId : String) (st : AzState) :
    Option (List AzDoc) :=
  lookupIndex st base

/-- Model of `RagService.build_index_from_blob`, index-routing and upload
behaviour (`rag_service.py` lines 50-176), with download / chunking /
embedding abstracted into `chunks` and the md5 blob identifier into
`blobId`.  Line 53 overwrites the `index_name` parameter with
`"saixgen_index"` before it is ever used; the index is created when
absent, and the documents (ids `f"{index_name}_{blob_identifier}_{i}"`)
are uploaded to it. -/
def build_index_from_blob (blobId : String) (index_name : String) (chunks : List String)
    (st : AzState) : AzState :=
  let index_name := "saixgen_index"
  let st1 := if hasIndexB st index_name then st else create_index st index_name
  upload_documents st1 index_name
    (chunks.enum.map (fun p => ⟨index_name ++ "_" ++ blobId ++ "_" ++ toString p.1, p.2⟩))

/-! ## Concrete oracles for counterexamples and witnesses -/

/-- A chunk is within budget as accumulated by the code, or is a split
remnant holding exactly one line that alone exceeds the budget. -/
def GoodChunk (tok : String → Nat) (t : Nat) (c : Chunk) : Prop :=
  chunkMeasure tok c ≤ t ∨ ∃ l, c = [[l]] ∧ tok l > t

/-- Loop invariant of the chunker: all emitted chunks are good, the
buffer's token counter equals the buffer's measure, and it stays within
the budget. -/
def ChunkInv (tok : String → Nat) (t : Nat) (st : CState) : Prop :=
  (∀ c ∈ st.chunks, GoodChunk tok t c) ∧
  st.currentTokens = chunkMeasure tok st.current ∧
  st.currentTokens ≤ t

/-- All lines emitted so far by a loop state: the lines of the emitted
chunks followed by the buffered lines.  Auxiliary quantity for the
row-preservation analysis. -/
def emittedLines (st : CState) : List String :=
  (st.chunks.map chunkLines).flatten ++ chunkLines st.current

/-- Rerank oracle that always fails (every call raises / fails to parse). -/
def scoreNone : String → SrcDoc → Option ℚ := fun _ _ => none

/-- Rerank oracle for the five-passage retrieval scenario: passage `d2`
is rescored lowest, the others high. -/
def exScore : String → SrcDoc → Option ℚ := fun _ d =>
  if d.documentId = "d2" then some 1
  else if d.documentId = "d1" then some 10
  else if d.documentId = "d3" then some 9
  else if d.documentId = "d4" then some 8
  else some 7

/-- Five retrieved passages in raw similarity order `d1 … d5`. -/
def exDocs : List SrcDoc :=
  [⟨"d1", 5, "s1"⟩, ⟨"d2", 4, "s2"⟩, ⟨"d3", 3, "s3"⟩, ⟨"d4", 2, "s4"⟩, ⟨"d5", 1, "s5"⟩]

/-- Embedding oracle that fails exactly on the text `"bad"`. -/
def embedBoom : String → Except String (List ℚ) :=
  fun s => if s = "bad" then .error "boom" else .ok [0]

/-! ## Helper lemmas -/

theorem chunkMeasure_singletons (tok : String → Nat) (ls : List String) :
    chunkMeasure tok (ls.map (fun l => [l])) = (ls.map tok).sum := by
  simp only [chunkMeasure, List.map_map]
  rfl

theorem chunkMeasure_append_piece (tok : String → Nat) (c : Chunk) (p : Piece) :
    chunkMeasure tok (c ++ [p]) = chunkMeasure tok c + pieceTokens tok p := by
  simp [chunkMeasure]

theorem splitGo_good (tok : String → Nat) (t : Nat) :
    ∀ (lines temp : List String) (tempTokens : Nat),
      tempTokens = (temp.map tok).sum →
      ((temp.map tok).sum ≤ t ∨ ∃ l, temp = [l] ∧ tok l > t) →
      ∀ c ∈ splitGo tok t lines temp tempTokens, GoodChunk tok t c := by
  intro lines
  induction lines with
  | nil =>
    intro temp tempTokens hsum hgood c hc
    simp only [splitGo] at hc
    split at hc
    · simp at hc
    · simp only [List.mem_singleton] at hc
      subst hc
      rcases hgood with h | ⟨l, hl, hgt⟩
      · exact Or.inl (by rw [chunkMeasure_singletons]; exact h)
      · exact Or.inr ⟨l, by rw [hl]; rfl, hgt⟩
  | cons line rest ih =>
    intro temp tempTokens hsum hgood c hc
    simp only [splitGo] at hc
    split at hc
    · rcases List.mem_cons.mp hc with hc | hc
      · subst hc
        rcases hgood with h | ⟨l, hl, hgt⟩
        · exact Or.inl (by rw [chunkMeasure_singletons]; exact h)
        · exact Or.inr ⟨l, by rw [hl]; rfl, hgt⟩
      · refine ih [line] (tok line) (by simp) ?_ c hc
        by_cases hle : tok line ≤ t
        · exact Or.inl (by simpa using hle)
        · exact Or.inr ⟨line, rfl, by omega⟩
    · rename_i hnot
      refine ih (temp ++ [line]) (tempTokens + tok line) (by simp [hsum]) ?_ c hc
      left
      rw [hsum] at hnot
      simp only [List.map_append, List.sum_append, List.map_cons, List.map_nil,
        List.sum_cons, List.sum_nil]
      omega

theorem ChunkInv.flush {tok : String → Nat} {t : Nat} {st : CState}
    (h : ChunkInv tok t st) (x : Option Int) :
    ChunkInv tok t ⟨st.chunks ++ [st.current], [], 0, x⟩ := by
  obtain ⟨hch, hsum, hle⟩ := h
  refine ⟨?_, rfl, Nat.zero_le _⟩
  intro c hc
  rcases List.mem_append.mp hc with hc | hc
  · exact hch c hc
  · simp only [List.mem_singleton] at hc
    subst hc
    exact Or.inl (by rw [← hsum]; exact hle)

theorem tokenFlush_inv {tok : String → Nat} {t : Nat} {st : CState} (comb : Nat)
    (h : ChunkInv tok t st) : ChunkInv tok t (tokenFlush t comb st) := by
  unfold tokenFlush
  split
  · exact h.flush none
  · exact h

theorem timeFlush_inv {tok : String → Nat} {t : Nat} {st : CState} (w : Int)
    (fts : Option Int) (h : ChunkInv tok t st) : ChunkInv tok t (timeFlush w fts st) := by
  unfold timeFlush
  split
  · split
    · exact h.flush _
    · exact h
  · exact h

theorem updateLastTs_inv {tok : String → Nat} {t : Nat} {st : CState} (g : List Row)
    (h : ChunkInv tok t st) : ChunkInv tok t (updateLastTs g st) := by
  unfold updateLastTs
  split
  · exact h
  · exact ⟨h.1, h.2.1, h.2.2⟩

theorem flushes_bound {tok : String → Nat} {t : Nat} {st : CState} (w : Int)
    (fts : Option Int) (comb : Nat) (h : ChunkInv tok t st) (hcomb : comb ≤ t) :
    (timeFlush w fts (tokenFlush t comb st)).currentTokens + comb ≤ t := by
  unfold tokenFlush
  split
  · -- token flush fired: the state now has an empty buffer and `lastTs = none`,
    -- so the time flush cannot fire either
    simpa [timeFlush] using hcomb
  · rename_i hno
    push_neg at hno
    unfold timeFlush
    split
    · split
      · simpa using hcomb
      · by_cases hcur : st.current = []
        · have h0 : st.currentTokens = 0 := by
            rw [h.2.1, hcur]
            rfl
          omega
        · have := hno hcur
          omega
    · by_cases hcur : st.current = []
      · have h0 : st.currentTokens = 0 := by
          rw [h.2.1, hcur]
          rfl
        omega
      · have := hno hcur
        omega

theorem chunkStep_inv (tok : String → Nat) (w : Int) (t : Nat) (st : CState) (g : List Row)
    (h : ChunkInv tok t st) : ChunkInv tok t (chunkStep tok w t st g) := by
  simp only [chunkStep]
  have h1 := tokenFlush_inv (tok (joinLines (g.map Row.line))) h
  split
  · refine ⟨?_, h1.2.1, h1.2.2⟩
    intro c hc
    rcases List.mem_append.mp hc with hc | hc
    · exact h1.1 c hc
    · exact splitGo_good tok t (g.map Row.line) [] 0 rfl (Or.inl (by simp)) c hc
  · rename_i hle
    have h2 := timeFlush_inv w (firstRowTs g) h1
    have hbound := flushes_bound w (firstRowTs g)
      (tok (joinLines (g.map Row.line))) h (by omega)
    refine updateLastTs_inv g ⟨h2.1, ?_, hbound⟩
    show _ + _ = chunkMeasure tok (_ ++ [g.map Row.line])
    rw [chunkMeasure_append_piece, ← h2.2.1]
    rfl

theorem initState_inv (tok : String → Nat) (t : Nat) : ChunkInv tok t initState :=
  ⟨by simp [initState], rfl, Nat.zero_le _⟩

theorem chunkRun_inv (tok : String → Nat) (w : Int) (t : Nat) :
    ∀ (groups : List (List Row)) (st : CState), ChunkInv tok t st →
      ChunkInv tok t (groups.foldl (chunkStep tok w t) st) := by
  intro groups
  induction groups with
  | nil => exact fun st h => h
  | cons g gs ih => exact fun st h => ih _ (chunkStep_inv tok w t st g h)

theorem rerank_documents_sorted (score : String → SrcDoc → Option ℚ) (query : String)
    (documents : List SrcDoc) :
    (rerank_documents score query documents).Sorted rerankGE :=
  List.sorted_insertionSort rerankGE _

theorem rerank_documents_perm (score : String → SrcDoc → Option ℚ) (query : String)
    (documents : List SrcDoc) :
    (rerank_documents score query documents).Perm
      (documents.map (mkReranked (score query))) :=
  List.perm_insertionSort rerankGE _

theorem insertKey_mem : ∀ {l : List Int} {x k : Int}, x ∈ insertKey k l → x = k ∨ x ∈ l := by
  intro l
  induction l with
  | nil =>
    intro x k hx
    simp only [insertKey, List.mem_singleton] at hx
    exact Or.inl hx
  | cons k' ks ih =>
    intro x k hx
    simp only [insertKey] at hx
    split at hx
    · rcases List.mem_cons.mp hx with hx | hx
      · exact Or.inl hx
      · exact Or.inr hx
    · split at hx
      · exact Or.inr hx
      · rcases List.mem_cons.mp hx with hx | hx
        · exact Or.inr (by rw [hx]; exact List.mem_cons_self k' ks)
        · rcases ih hx with hx | hx
          · exact Or.inl hx
          · exact Or.inr (List.mem_cons_of_mem k' hx)

theorem insertKey_sorted {k : Int} : ∀ {l : List Int}, l.Sorted (· < ·) →
    (insertKey k l).Sorted (· < ·) := by
  intro l
  induction l with
  | nil =>
    intro _
    simp [insertKey]
  | cons k' ks ih =>
    intro h
    rw [List.sorted_cons] at h
    obtain ⟨hall, htail⟩ := h
    simp only [insertKey]
    split
    · rename_i hlt
      rw [List.sorted_cons]
      refine ⟨?_, List.sorted_cons.mpr ⟨hall, htail⟩⟩
      intro b hb
      rcases List.mem_cons.mp hb with hb | hb
      · omega
      · have := hall b hb
        omega
    · split
      · exact List.sorted_cons.mpr ⟨hall, htail⟩
      · rename_i hnlt hne
        rw [List.sorted_cons]
        refine ⟨?_, ih htail⟩
        intro b hb
        rcases insertKey_mem hb with hb | hb
        · omega
        · exact hall b hb

theorem sortedKeys_sorted (rows : List Row) : (sortedKeys rows).Sorted (· < ·) := by
  unfold sortedKeys
  generalize ((sortRows rows).filterMap threadKey) = ks
  induction ks with
  | nil => simp
  | cons k ks ih => exact insertKey_sorted ih

theorem lookupIndex_create (st : AzState) (n m : String) :
    lookupIndex (create_index st n) m =
      (match lookupIndex st m with
       | some ds => some ds
       | none => if n = m then some [] else none) := by
  induction st with
  | nil => rfl
  | cons e st ih =>
    obtain ⟨a, b⟩ := e
    by_cases ham : a = m
    · simp [create_index, lookupIndex, ham]
    · simp only [create_index, List.cons_append, lookupIndex, if_neg ham]
      exact ih

theorem lookupIndex_upload_ne (st : AzState) (n : String) (docs : List AzDoc) (m : String)
    (h : m ≠ n) : lookupIndex (upload_documents st n docs) m = lookupIndex st m := by
  induction st with
  | nil => rfl
  | cons e st ih =>
    obtain ⟨a, b⟩ := e
    simp only [upload_documents, List.map_cons, lookupIndex] at *
    by_cases ham : a = m
    · simp [ham, h]
    · simp only [if_neg ham]
      exact ih

theorem lookupIndex_upload_isSome (st : AzState) (n : String) (docs : List AzDoc)
    (m : String) :
    (lookupIndex (upload_documents st n docs) m).isSome = (lookupIndex st m).isSome := by
  induction st with
  | nil => rfl
  | cons e st ih =>
    obtain ⟨a, b⟩ := e
    simp only [upload_documents, List.map_cons, lookupIndex] at *
    by_cases ham : a = m
    · simp [ham]
    · simp only [if_neg ham]
      exact ih

theorem chunkLines_nil : chunkLines [] = [] := rfl

theorem flatten_map_singleton (ls : List String) :
    chunkLines (ls.map (fun l => [l])) = ls := by
  induction ls with
  | nil => rfl
  | cons x xs ih => simp [chunkLines] at *; exact ih

theorem splitGo_lines (tok : String → Nat) (t : Nat) :
    ∀ (lines temp : List String) (tempTokens : Nat),
      (((splitGo tok t lines temp tempTokens).map chunkLines).flatten) = temp ++ lines := by
  intro lines
  induction lines with
  | nil =>
    intro temp tempTokens
    simp only [splitGo]
    split
    · rename_i h
      simp [h]
    · simp [flatten_map_singleton]
  | cons line rest ih =>
    intro temp tempTokens
    simp only [splitGo]
    split
    · simp [flatten_map_singleton, ih]
    · rw [ih]
      simp

theorem tokenFlush_lines (t comb : Nat) (st : CState) :
    emittedLines (tokenFlush t comb st) = emittedLines st := by
  unfold tokenFlush
  split
  · simp [emittedLines, chunkLines]
  · rfl

theorem timeFlush_lines (w : Int) (fts : Option Int) (st : CState) :
    emittedLines (timeFlush w fts st) = emittedLines st := by
  unfold timeFlush
  split
  · split
    · simp [emittedLines, chunkLines]
    · rfl
  · rfl

theorem updateLastTs_lines (g : List Row) (st : CState) :
    emittedLines (updateLastTs g st) = emittedLines st := by
  unfold updateLastTs
  split
  · rfl
  · rfl

theorem appendGroup_lines (ls : List String) (comb : Nat) (st : CState) :
    emittedLines (appendGroup ls comb st) = emittedLines st ++ ls := by
  simp [appendGroup, emittedLines, chunkLines]

theorem tokenFlush_current_oversize (t comb : Nat) (st : CState) (h : comb > t) :
    (tokenFlush t comb st).current = [] := by
  unfold tokenFlush
  split
  · rfl
  · rename_i hno
    push_neg at hno
    by_cases hc : st.current = []
    · exact hc
    · exact absurd (hno hc) (by omega)

theorem chunkStep_lines (tok : String → Nat) (w : Int) (t : Nat) (st : CState) (g : List Row) :
    emittedLines (chunkStep tok w t st g) = emittedLines st ++ g.map Row.line := by
  simp only [chunkStep]
  split
  · rename_i hgt
    have hcur := tokenFlush_current_oversize t (tok (joinLines (g.map Row.line))) st hgt
    have h1 := tokenFlush_lines t (tok (joinLines (g.map Row.line))) st
    rw [emittedLines, hcur, chunkLines_nil, List.append_nil] at h1
    show (((tokenFlush t (tok (joinLines (g.map Row.line))) st).chunks
        ++ splitGo tok t (g.map Row.line) [] 0).map chunkLines).flatten
      ++ chunkLines (tokenFlush t (tok (joinLines (g.map Row.line))) st).current
      = emittedLines st ++ g.map Row.line
    rw [hcur, chunkLines_nil, List.append_nil, List.map_append, List.flatten_append,
      splitGo_lines, h1]
    simp
  · rw [updateLastTs_lines, appendGroup_lines, timeFlush_lines, tokenFlush_lines]

theorem chunkRun_lines (tok : String → Nat) (w : Int) (t : Nat) :
    ∀ (gs : List (List Row)) (st : CState),
      emittedLines (gs.foldl (chunkStep tok w t) st)
        = emittedLines st ++ (gs.map (fun g => g.map Row.line)).flatten := by
  intro gs
  induction gs with
  | nil => intro st; simp
  | cons g gs ih =>
    intro st
    rw [List.foldl_cons, ih, chunkStep_lines]
    simp

theorem chunkCore_lines_eq_run (tok : String → Nat) (w : Int) (t : Nat) (rows : List Row) :
    ((chunkCore tok w t rows).map chunkLines).flatten
      = emittedLines (chunkRun tok w t ((threadGroups rows).map Prod.snd)) := by
  simp only [chunkCore]
  generalize chunkRun tok w t ((threadGroups rows).map Prod.snd) = fin
  rw [List.map_append, List.flatten_append, emittedLines]
  congr 1
  split
  · rename_i hc
    simp [hc, chunkLines_nil]
  · simp

/-- The loop itself drops nothing: the lines of the emitted passages are
exactly the concatenation of the visited thread groups' rendered lines,
in visiting order. -/
theorem chunkCore_lines_eq_groups (tok : String → Nat) (w : Int) (t : Nat) (rows : List Row) :
    ((chunkCore tok w t rows).map chunkLines).flatten
      = ((threadGroups rows).map (fun kg => kg.2.map Row.line)).flatten := by
  rw [chunkCore_lines_eq_run]
  unfold chunkRun
  rw [chunkRun_lines]
  simp [emittedLines, initState, chunkLines, List.map_map]
  rfl

theorem mem_insertKey_self (k : Int) : ∀ (l : List Int), k ∈ insertKey k l := by
  intro l
  induction l with
  | nil => simp [insertKey]
  | cons k' ks ih =>
    simp only [insertKey]
    split
    · exact List.mem_cons_self _ _
    · split
      · rename_i heq
        rw [heq]
        exact List.mem_cons_self _ _
      · exact List.mem_cons_of_mem _ ih

theorem mem_insertKey_of_mem {x : Int} (k : Int) : ∀ {l : List Int}, x ∈ l → x ∈ insertKey k l := by
  intro l
  induction l with
  | nil =>
    intro h
    simp at h
  | cons k' ks ih =>
    intro hx
    simp only [insertKey]
    split
    · exact List.mem_cons_of_mem _ hx
    · split
      · exact hx
      · rcases List.mem_cons.mp hx with h | h
        · rw [h]
          exact List.mem_cons_self _ _
        · exact List.mem_cons_of_mem _ (ih h)

theorem mem_foldr_insertKey {x : Int} : ∀ {l : List Int}, x ∈ l.foldr insertKey [] ↔ x ∈ l := by
  intro l
  induction l with
  | nil => simp
  | cons k ks ih =>
    rw [List.foldr_cons]
    constructor
    · intro h
      rcases insertKey_mem h with h | h
      · rw [h]
        exact List.mem_cons_self _ _
      · exact List.mem_cons_of_mem _ (ih.mp h)
    · intro h
      rcases List.mem_cons.mp h with h | h
      · rw [h]
        exact mem_insertKey_self _ _
      · exact mem_insertKey_of_mem _ (ih.mpr h)

theorem mem_sortedKeys (rows : List Row) (r : Row) (k : Int)
    (hr : r ∈ sortRows rows) (hk : threadKey r = some k) : k ∈ sortedKeys rows := by
  unfold sortedKeys
  rw [mem_foldr_insertKey]
  exact List.mem_filterMap.mpr ⟨r, hr, hk⟩

theorem sortedKeys_nodup (rows : List Row) : (sortedKeys rows).Nodup :=
  List.Pairwise.imp (fun h => ne_of_lt h) (sortedKeys_sorted rows)

theorem flatten_map_nilfun (K : List Int) :
    ((K.map (fun _ => ([] : List Row))).flatten) = [] := by
  induction K with
  | nil => rfl
  | cons k K ih =>
    simp only [List.map_cons, List.flatten_cons, List.nil_append]
    exact ih

theorem filters_cons_perm (r : Row) (l : List Row) (k₀ : Int) (hk : threadKey r = some k₀) :
    ∀ (K : List Int), K.Nodup → k₀ ∈ K →
      ((K.map (fun k => (r :: l).filter (fun x => threadKey x == some k))).flatten).Perm
        (r :: (K.map (fun k => l.filter (fun x => threadKey x == some k))).flatten) := by
  intro K
  induction K with
  | nil =>
    intro _ hmem
    simp at hmem
  | cons k K ih =>
    intro hnd hmem
    rw [List.nodup_cons] at hnd
    obtain ⟨hkK, hndK⟩ := hnd
    by_cases hkk : k = k₀
    · subst hkk
      have hhead : (r :: l).filter (fun x => threadKey x == some k)
          = r :: l.filter (fun x => threadKey x == some k) := by
        simp [List.filter_cons, hk]
      have htail : K.map (fun k' => (r :: l).filter (fun x => threadKey x == some k'))
          = K.map (fun k' => l.filter (fun x => threadKey x == some k')) := by
        refine List.map_congr_left ?_
        intro k' hk'
        have hne : ¬ ((threadKey r == some k') = true) := by
          simp [hk]
          exact fun hc => hkK (hc ▸ hk')
        simp [List.filter_cons, hne]
      rw [List.map_cons, List.map_cons, hhead, htail, List.flatten_cons, List.flatten_cons,
        List.cons_append]
    · have hhead : (r :: l).filter (fun x => threadKey x == some k)
          = l.filter (fun x => threadKey x == some k) := by
        have hne : ¬ ((threadKey r == some k) = true) := by
          simp [hk]
          exact fun hc => hkk hc.symm
        simp [List.filter_cons, hne]
      have hmem' : k₀ ∈ K := by
        rcases List.mem_cons.mp hmem with h | h
        · exact absurd h.symm hkk
        · exact h
      have hrec := ih hndK hmem'
      rw [List.map_cons, List.map_cons, hhead, List.flatten_cons, List.flatten_cons]
      exact (List.Perm.append_left _ hrec).trans List.perm_middle

theorem filters_partition (K : List Int) : ∀ (l : List Row), K.Nodup →
    (∀ r ∈ l, ∀ k, threadKey r = some k → k ∈ K) →
    ((K.map (fun k => l.filter (fun x => threadKey x == some k))).flatten).Perm
      (l.filter (fun x => (threadKey x).isSome)) := by
  intro l
  induction l with
  | nil =>
    intro _ _
    simp [flatten_map_nilfun]
  | cons r l ih =>
    intro hnd hcl
    have hcl' : ∀ x ∈ l, ∀ k, threadKey x = some k → k ∈ K :=
      fun x hx => hcl x (List.mem_cons_of_mem r hx)
    cases hkey : threadKey r with
    | some k₀ =>
      have hmem : k₀ ∈ K := hcl r (List.mem_cons_self r l) k₀ hkey
      have hstep := filters_cons_perm r l k₀ hkey K hnd hmem
      have hr : (r :: l).filter (fun x => (threadKey x).isSome)
          = r :: l.filter (fun x => (threadKey x).isSome) := by
        simp [List.filter_cons, hkey]
      rw [hr]
      exact hstep.trans ((ih hnd hcl').cons r)
    | none =>
      have hmapeq : K.map (fun k => (r :: l).filter (fun x => threadKey x == some k))
          = K.map (fun k => l.filter (fun x => threadKey x == some k)) := by
        refine List.map_congr_left ?_
        intro k _
        simp [List.filter_cons, hkey]
      have hr : (r :: l).filter (fun x => (threadKey x).isSome)
          = l.filter (fun x => (threadKey x).isSome) := by
        simp [List.filter_cons, hkey]
      rw [hmapeq, hr]
      exact ih hnd hcl'

/-- Row preservation, precisely: the multiset of lines across all emitted
passages equals the multiset of rendered lines of exactly those input
rows whose thread key parses ( `parent_timestamp`, falling back to
`timestamp`); rows where both fail to parse are the only ones missing
(they are dropped by `groupby`'s `NaT`-key handling, see the C1 record). -/
theorem chunkCore_preserves_keyed_rows (tok : String → Nat) (w : Int) (t : Nat)
    (rows : List Row) :
    (((chunkCore tok w t rows).map chunkLines).flatten).Perm
      ((rows.filter (fun r => (threadKey r).isSome)).map Row.line) := by
  rw [chunkCore_lines_eq_groups]
  have hform : ((threadGroups rows).map (fun kg => kg.2.map Row.line)).flatten
      = (((threadGroups rows).map Prod.snd).flatten).map Row.line := by
    rw [List.map_flatten, List.map_map]
    rfl
  rw [hform]
  refine List.Perm.map Row.line ?_
  have h1 : (((threadGroups rows).map Prod.snd).flatten).Perm
      ((sortRows rows).filter (fun x => (threadKey x).isSome)) := by
    have hcl : ∀ r ∈ sortRows rows, ∀ k, threadKey r = some k → k ∈ sortedKeys rows :=
      fun r hr k hk => mem_sortedKeys rows r k hr hk
    have hpart := filters_partition (sortedKeys rows) (sortRows rows)
      (sortedKeys_nodup rows) hcl
    unfold threadGroups
    rw [List.map_map]
    exact hpart
  have h2 := (List.perm_insertionSort (fun a b => tsLeB a b = true) rows).filter
    (fun x => (threadKey x).isSome)
  exact h1.trans h2

/-! ## Claims -/

/-- C1: the chunker is claimed to preserve the set of input rows,
including rows whose timestamp and parent-timestamp both fail to parse.
Evaluated at a two-row table whose second row has both timestamps
unparseable: the emitted passages contain only the first row's line — the
orphan row is silently dropped, because `df.groupby` discards `NaT` keys. -/
theorem claim1_dropped_row_eval :
    chunkCore tokChars 5 1000 [⟨some 0, some 0, "good-line"⟩, ⟨none, none, "orphan-line"⟩]
      = [[["good-line"]]] ∧
    "orphan-line" ∉
      ((chunkCore tokChars 5 1000
        [⟨some 0, some 0, "good-line"⟩, ⟨none, none, "orphan-line"⟩]).map chunkLines).flatten := by
  decide

/-- C2 (counterexample): the claim that every emitted passage's own token
count stays within `target_chunk_tokens` (single oversized lines apart)
fails: with a budget of 4 and the character-count tokenizer, two
two-token groups are buffered together (4 ≤ 4) but the emitted passage
`"ab\ncd"` counts 5 tokens because of the newline the join inserts, and
it is not a single-line passage. -/
theorem claim2_counterexample :
    ¬ (∀ c ∈ chunkCore tokChars 100 4 [⟨some 0, some 0, "ab"⟩, ⟨some 1, some 1, "cd"⟩],
        tokChars (chunkText c) ≤ 4 ∨ ∃ l, c = [[l]] ∧ tokChars l > 4) := by
  intro h
  have hmem : ([["ab"], ["cd"]] : Chunk) ∈
      chunkCore tokChars 100 4 [⟨some 0, some 0, "ab"⟩, ⟨some 1, some 1, "cd"⟩] := by
    decide
  rcases h [["ab"], ["cd"]] hmem with h1 | ⟨l, hl, _⟩
  · revert h1
    decide
  · simp at hl

/-- C2 (amended): every chunk the chunker emits either has an accumulated
token measure (the per-piece token counts the code actually sums:
per-thread-group on the buffered path, per-line on the split path) at
most `target_chunk_tokens`, or is a sub-split chunk holding exactly one
line whose own token count exceeds the budget.  The passage's own token
count can exceed the budget only by the tokens contributed at the
newline joins. -/
theorem claim2_amended_token_budget (tok : String → Nat) (w : Int) (t : Nat)
    (rows : List Row) (c : Chunk) (hc : c ∈ chunkCore tok w t rows) :
    chunkMeasure tok c ≤ t ∨ ∃ l, c = [[l]] ∧ tok l > t := by
  have hinv := chunkRun_inv tok w t ((threadGroups rows).map Prod.snd) initState
    (initState_inv tok t)
  simp only [chunkCore, chunkRun] at hc
  rcases List.mem_append.mp hc with hc | hc
  · exact hinv.1 c hc
  · split at hc
    · simp at hc
    · simp only [List.mem_singleton] at hc
      subst hc
      exact Or.inl (by rw [← hinv.2.1]; exact hinv.2.2)

/-- C2 (witness): the amended bound evaluated at the concrete two-group
passage of the counterexample input. -/
theorem claim2_amended_witness :
    chunkMeasure tokChars [["ab"], ["cd"]] ≤ 4 ∨
      ∃ l, ([["ab"], ["cd"]] : Chunk) = [[l]] ∧ tokChars l > 4 :=
  claim2_amended_token_budget tokChars 100 4
    [⟨some 0, some 0, "ab"⟩, ⟨some 1, some 1, "cd"⟩] [["ab"], ["cd"]] (by decide)

/-- C3: tenant isolation is violated.  Starting from an empty search
service, tenant `atenant` ingests `docA`; this creates the per-tenant
index and also creates an empty index under the shared base name (the
"alias" block).  Tenant `btenant` then ingests `docB`: alias resolution
now finds the base-named index, so `docB` is uploaded into the shared
index.  When tenant `atenant` queries, `query_index` searches the
base-named index regardless of tenant and hands back `docB` — tenant B's
passage is returned to tenant A. -/
theorem claim3_tenant_leak_eval :
    query_index_search_target "idx" "atenant"
      (build_index "idx" "Btenant" "f2" ["docB"]
        (build_index "idx" "Atenant" "f1" ["docA"] []))
      = some [⟨"f2_0", "docB"⟩] := by
  decide

/-- C4 (counterexample): with five retrieved passages in raw similarity
order `d1 … d5` and a rerank oracle that rescores `d2` lowest, the
reranked order puts `d2` last, but the response's `sourceDocuments` stays
in raw similarity order with `d2` second — so `source_documents` does not
reflect rerank order. -/
theorem claim4_counterexample :
    (query_index_model (fun _ => []) (fun _ => exDocs) exScore (fun c _ => c)
        "q").sourceDocuments.map SrcDoc.documentId = ["d1", "d2", "d3", "d4", "d5"] ∧
    (rerank_documents exScore "q" exDocs).map RerankedDoc.documentId
      = ["d1", "d3", "d4", "d5", "d2"] ∧
    (query_index_model (fun _ => []) (fun _ => exDocs) exScore (fun c _ => c)
        "q").sourceDocuments.map SrcDoc.documentId
      ≠ (rerank_documents exScore "q" exDocs).map RerankedDoc.documentId := by
  refine ⟨by decide, by decide, by decide⟩

/-- C4 (amended): the context block handed to the completion call is the
newline-join of the reranked documents' snippets, in rerank-score
descending order; but the `sourceDocuments` list (and the `scores` list)
of the response keeps the raw similarity order of retrieval. -/
theorem claim4_amended_order (embed : String → List ℚ) (search : List ℚ → List SrcDoc)
    (score : String → SrcDoc → Option ℚ) (complete : String → String → String)
    (q : String) :
    (query_index_model embed search score complete q).sourceDocuments = search (embed q) ∧
    (query_index_model embed search score complete q).scores
      = (search (embed q)).map SrcDoc.relevanceScore ∧
    (query_index_model embed search score complete q).answer
      = complete (String.intercalate "\n"
          ((rerank_documents score q (search (embed q))).map RerankedDoc.contentSnippet)) q ∧
    (rerank_documents score q (search (embed q))).Sorted rerankGE :=
  ⟨rfl, rfl, rfl, rerank_documents_sorted score q (search (embed q))⟩

/-- C5: the `/query` endpoint expands the query before `query_index`
embeds it, and on expansion failure the response's `expandedQuery` equals
the original query unchanged (because `expand_query` falls back to the
original and `query_index` echoes its input query). -/
theorem claim5_query_expansion (embed : String → List ℚ) (search : List ℚ → List SrcDoc)
    (score : String → SrcDoc → Option ℚ) (complete : String → String → String)
    (eoracle : String → Option String) (q : String) :
    query_rag_index embed search score complete eoracle q
      = query_index_model embed search score complete (expand_query eoracle q) ∧
    (eoracle q = none →
      (query_rag_index embed search score complete eoracle q).expandedQuery = q) := by
  refine ⟨rfl, fun h => ?_⟩
  simp [query_rag_index, query_index_model, expand_query, h]

/-- C5 (witness): the expansion-failure fallback evaluated at a concrete
always-failing expansion oracle. -/
theorem claim5_witness :
    (query_rag_index (fun _ => []) (fun _ => []) scoreNone (fun _ _ => "")
        (fun _ => none) "hello").expandedQuery = "hello" :=
  (claim5_query_expansion (fun _ => []) (fun _ => []) scoreNone (fun _ _ => "")
    (fun _ => none) "hello").2 rfl

/-- C6: `rerank_documents` returns a list of the same length as its
input, sorted descending by rerank score, which is a permutation of the
per-document rescorings; any document whose model call or score parse
fails (oracle `none`) appears in the output with rerank score `0`. -/
theorem claim6_rerank_contract (score : String → SrcDoc → Option ℚ) (query : String)
    (documents : List SrcDoc) :
    (rerank_documents score query documents).length = documents.length ∧
    (rerank_documents score query documents).Sorted rerankGE ∧
    (rerank_documents score query documents).Perm
      (documents.map (mkReranked (score query))) ∧
    ∀ d ∈ documents, score query d = none →
      mkReranked (score query) d ∈ rerank_documents score query documents ∧
      (mkReranked (score query) d).rerankScore = 0 := by
  refine ⟨?_, rerank_documents_sorted score query documents,
    rerank_documents_perm score query documents, ?_⟩
  · rw [rerank_documents, List.length_insertionSort, List.length_map]
  · intro d hd hnone
    refine ⟨?_, by simp [mkReranked, hnone]⟩
    exact (rerank_documents_perm score query documents).mem_iff.mpr
      (List.mem_map_of_mem _ hd)

/-- C6 (witness): the failure-to-zero clause evaluated at a one-document
list with an always-failing scoring oracle. -/
theorem claim6_witness :
    mkReranked (scoreNone "q") ⟨"d", 1, "s"⟩ ∈ rerank_documents scoreNone "q" [⟨"d", 1, "s"⟩] ∧
    (mkReranked (scoreNone "q") ⟨"d", 1, "s"⟩).rerankScore = 0 :=
  (claim6_rerank_contract scoreNone "q" [⟨"d", 1, "s"⟩]).2.2.2
    ⟨"d", 1, "s"⟩ (List.mem_singleton.mpr rfl) rfl

/-- C7 (counterexample): the failure raised by `create_embeddings` cannot
carry the failing text's index: a batch failing at index 0 and a batch
failing at index 1 produce the identical error value, which records only
the message and the underlying error string. -/
theorem claim7_counterexample :
    create_embeddings embedBoom ["bad", "ok"] = create_embeddings embedBoom ["ok", "bad"] ∧
    create_embeddings embedBoom ["bad", "ok"]
      = .error ⟨"Failed to create embedding", "boom"⟩ :=
  ⟨rfl, rfl⟩

/-- C7 (amended): `create_embeddings` aborts the whole batch on the first
failing text — the texts after the failure are never reached and earlier
successes are discarded — and the raised failure carries the fixed
message and the underlying error string, but not the failing index. -/
theorem claim7_amended_abort (embed : String → Except String (List ℚ))
    (pre : List String) (c : String) (post : List String) (e : String)
    (hpre : ∀ x ∈ pre, ∃ v, embed x = Except.ok v) (hc : embed c = Except.error e) :
    create_embeddings embed (pre ++ c :: post)
      = .error ⟨"Failed to create embedding", e⟩ := by
  induction pre with
  | nil => simp [create_embeddings, hc]
  | cons x xs ih =>
    obtain ⟨v, hv⟩ := hpre x (List.mem_cons_self x xs)
    have hrest := ih (fun y hy => hpre y (List.mem_cons_of_mem x hy))
    simp [create_embeddings, hv, hrest]

/-- C7 (witness): the abort behaviour evaluated at a concrete batch whose
second text fails. -/
theorem claim7_witness :
    create_embeddings embedBoom (["ok"] ++ "bad" :: ["tail"])
      = .error ⟨"Failed to create embedding", "boom"⟩ :=
  claim7_amended_abort embedBoom ["ok"] "bad" ["tail"] "boom"
    (fun x hx => by rw [List.mem_singleton] at hx; subst hx; exact ⟨[0], rfl⟩) rfl

/-- C8: on an empty input table the chunker does not return zero passages
normally — it raises: the chunk list is empty, and the statistics logging
divides by the zero chunk count (`ZeroDivisionError` at `blob.py`
line 122), for every tokenizer, window and budget. -/
theorem claim8_empty_input_eval :
    ∀ (tok : String → Nat) (w : Int) (t : Nat),
      preprocess_and_chunk_data tok w t [] = .error .statsEmpty :=
  fun _ _ _ => rfl

/-- C9 (counterexample): with two rows — the earlier row (ts 0) in thread
100 and the later row (ts 1) in thread 50 — the code visits the groups in
ascending key order `[50, 100]`, not in first-appearance order
`[100, 50]`: the group with the older parent key but the later first row
is processed first, not later. -/
theorem claim9_counterexample :
    (threadGroups [⟨some 0, some 100, "A"⟩, ⟨some 1, some 50, "B"⟩]).map Prod.fst
      ≠ firstAppearanceKeys [⟨some 0, some 100, "A"⟩, ⟨some 1, some 50, "B"⟩] := by
  decide

/-- C9 (amended): the chunker visits the thread groups in strictly
ascending order of their `parent_timestamp` group keys (pandas `groupby`
sorts groups by key), independent of where each group's first row appears
after the global sort. -/
theorem claim9_amended_key_order (rows : List Row) :
    ((threadGroups rows).map Prod.fst).Sorted (· < ·) := by
  have h : (threadGroups rows).map Prod.fst = sortedKeys rows := by
    unfold threadGroups
    rw [List.map_map]
    exact List.map_id _
  rw [h]
  exact sortedKeys_sorted rows

/-- C10: `build_index_from_blob` writes to the index named
`"saixgen_index"` whatever `index_name` argument the caller passes: the
result state is literally independent of the argument, the
`"saixgen_index"` index exists afterwards, and every other index is left
untouched. -/
theorem claim10_index_name_ignored (blobId n₁ n₂ : String) (chunks : List String)
    (st : AzState) :
    build_index_from_blob blobId n₁ chunks st = build_index_from_blob blobId n₂ chunks st ∧
    hasIndexB (build_index_from_blob blobId n₁ chunks st) "saixgen_index" = true ∧
    ∀ m, m ≠ "saixgen_index" →
      lookupIndex (build_index_from_blob blobId n₁ chunks st) m = lookupIndex st m := by
  refine ⟨rfl, ?_, ?_⟩
  · simp only [build_index_from_blob, hasIndexB]
    rw [lookupIndex_upload_isSome]
    split
    · rename_i hhas
      exact hhas
    · rename_i hnot
      rw [lookupIndex_create]
      cases hlk : lookupIndex st "saixgen_index" with
      | some ds => rw [hlk] at hnot; simp at hnot
      | none => simp [hlk]
  · intro m hm
    simp only [build_index_from_blob]
    rw [lookupIndex_upload_ne _ _ _ _ hm]
    split
    · rfl
    · rw [lookupIndex_create]
      have hnm : ¬ ("saixgen_index" = m) := fun hc => hm hc.symm
      cases hlm : lookupIndex st m with
      | some ds => simp [hlm]
      | none => simp [hlm, hnm]

/-- C10 (witness): an unrelated index name is untouched by a concrete
`build_index_from_blob` run. -/
theorem claim10_witness :
    lookupIndex (build_index_from_blob "b" "some-name" ["c"] []) "other"
      = lookupIndex [] "other" :=
  (claim10_index_name_ignored "b" "some-name" "x" ["c"] []).2.2 "other" (by decide)

end Saix
